import Mathlib

/-!
Shallow embedding of the raytracing-rs core (src/main.rs): the scene state
machine (`World`), the per-tick update (drag + bounce), the per-pixel
classification (`World.drawPixel`) and the ray/circle shadow test
(`is_shadowed`).  The source's `f32` arithmetic is modelled by exact real
arithmetic; the one observable non-finite case (division by zero in the
degenerate zero-length ray) is additionally modelled by `FVal`, a value type
with an explicit non-finite element.  Only the primary mouse button (index 0
in the source) is modelled, since it is the only button the code queries.
-/

/-- Source constant `WIDTH: u32 = 1280`. -/
def WIDTH : Nat := 1280

/-- Source constant `HEIGHT: u32 = 720`. -/
def HEIGHT : Nat := 720

/-- Source constant `CIRCLE_X: f32 = 850.0`. -/
noncomputable def CIRCLE_X : ℝ := 850

/-- Source constant `CIRCLE_Y: f32 = 720.0/2.0`. -/
noncomputable def CIRCLE_Y : ℝ := 720 / 2

/-- Source constant `CIRCLE_R: f32 = 150.0`. -/
noncomputable def CIRCLE_R : ℝ := 150

/-- Source constant `LIGHT_X: f32 = 200.0`. -/
noncomputable def LIGHT_X : ℝ := 200

/-- Source constant `LIGHT_Y: f32 = 720.0/2.0`. -/
noncomputable def LIGHT_Y : ℝ := 720 / 2

/-- Source constant `LIGHT_R: f32 = 25.0`. -/
noncomputable def LIGHT_R : ℝ := 25

/-- The `World` struct of the source: drag flag, light position, occluder
vertical position and vertical velocity. -/
structure World where
  dragging : Bool
  light_x : ℝ
  light_y : ℝ
  circle_y : ℝ
  circle_vy : ℝ

/-- The slice of `WinitInputHelper` that `World::update` reads: primary-button
press / held / release flags for this tick and the pointer position. -/
structure Input where
  mouse_pressed : Bool
  mouse_held : Bool
  mouse_released : Bool
  cursor : Option (ℝ × ℝ)

/-- `World::new`. -/
noncomputable def World.new : World :=
  { dragging := false
    light_x := LIGHT_X
    light_y := LIGHT_Y
    circle_y := CIRCLE_Y
    circle_vy := 0.2 }

/-- First block of `World::update`: on a primary-button press inside the light
circle, start dragging. -/
noncomputable def World.pressStep (w : World) (input : Input) : World :=
  if input.mouse_pressed then
    match input.cursor with
    | some (mx, my) =>
      let dx := mx - w.light_x
      let dy := my - w.light_y
      if Real.sqrt (dx * dx + dy * dy) ≤ LIGHT_R then { w with dragging := true } else w
    | none => w
  else w

/-- Second block of `World::update`: while dragging with the button held, the
light follows the pointer. -/
def World.dragStep (w : World) (input : Input) : World :=
  if w.dragging && input.mouse_held then
    match input.cursor with
    | some (mx, my) => { w with light_x := mx, light_y := my }
    | none => w
  else w

/-- Third block of `World::update`: stop dragging on release. -/
def World.releaseStep (w : World) (input : Input) : World :=
  if input.mouse_released then { w with dragging := false } else w

/-- Fourth block of `World::update`: move the circle by its velocity, then
negate the velocity if the committed position is past either boundary. -/
noncomputable def World.moveStep (w : World) : World :=
  let cy := w.circle_y + w.circle_vy
  if cy < CIRCLE_R ∨ cy > (HEIGHT : ℝ) - CIRCLE_R then
    { w with circle_y := cy, circle_vy := -w.circle_vy }
  else
    { w with circle_y := cy }

/-- `World::update`: the four blocks in source order. -/
noncomputable def World.update (w : World) (input : Input) : World :=
  (((w.pressStep input).dragStep input).releaseStep input).moveStep

/-- Root test of `is_shadowed` on the already-built quadratic coefficients:
reject a negative discriminant, otherwise test whether either root
`(-b ∓ sqrt disc) / (2 a)` lies in the closed unit interval.  The source's
local `disc`, `disc_sqrt`, `t1`, `t2` bindings are inlined. -/
noncomputable def shadowRoots (a b c : ℝ) : Prop :=
  if b * b - 4 * a * c < 0 then False
  else
    (0 ≤ (-b - Real.sqrt (b * b - 4 * a * c)) / (2 * a) ∧
      (-b - Real.sqrt (b * b - 4 * a * c)) / (2 * a) ≤ 1) ∨
    (0 ≤ (-b + Real.sqrt (b * b - 4 * a * c)) / (2 * a) ∧
      (-b + Real.sqrt (b * b - 4 * a * c)) / (2 * a) ≤ 1)

/-- `is_shadowed(lx, ly, px, py, cx, cy, r)`: the source's `dx`, `dy`, `fx`,
`fy` bindings are inlined into the three quadratic coefficients. -/
noncomputable def is_shadowed (lx ly px py cx cy r : ℝ) : Prop :=
  shadowRoots
    ((px - lx) * (px - lx) + (py - ly) * (py - ly))
    (2 * ((lx - cx) * (px - lx) + (ly - cy) * (py - ly)))
    ((lx - cx) * (lx - cx) + (ly - cy) * (ly - cy) - r * r)

open Classical in
/-- One pixel of `World::draw`: the source iterates 4-byte chunks, pixel `i`
sitting at column `i % WIDTH` and row `i / WIDTH`; the RGBA quadruple is the
first matching branch of the classification chain. -/
noncomputable def World.drawPixel (w : World) (i : Nat) : List Nat :=
  let xi : ℝ := ((i % WIDTH : Nat) : ℝ)
  let yi : ℝ := ((i / WIDTH : Nat) : ℝ)
  let dist_light := Real.sqrt ((xi - w.light_x) ^ 2 + (yi - w.light_y) ^ 2)
  let dist_circle := Real.sqrt ((xi - CIRCLE_X) ^ 2 + (yi - w.circle_y) ^ 2)
  if dist_light ≤ LIGHT_R then [0xff, 0xff, 0xff, 0xff]
  else if dist_circle ≤ CIRCLE_R then [0xff, 0xff, 0xff, 0xff]
  else if is_shadowed w.light_x w.light_y xi yi CIRCLE_X w.circle_y CIRCLE_R then
    [0x00, 0x00, 0x00, 0xff]
  else [0xff, 0xff, 0x00, 0xff]

/-- An input tick carrying no mouse activity. -/
def noInput : Input :=
  { mouse_pressed := false, mouse_held := false, mouse_released := false, cursor := none }

/-- The tick on which the primary button goes down at pointer position `p`
(the button is also reported held on that tick). -/
def pressAt (p : ℝ × ℝ) : Input :=
  { mouse_pressed := true, mouse_held := true, mouse_released := false, cursor := some p }

/-- A tick on which the primary button is held (no press edge, no release)
with the pointer at `p`. -/
def holdAt (p : ℝ × ℝ) : Input :=
  { mouse_pressed := false, mouse_held := true, mouse_released := false, cursor := some p }

/-- Run `World::update` over a list of input ticks, oldest first. -/
noncomputable def updates (w : World) (l : List Input) : World :=
  l.foldl World.update w

/-- The scene states reachable from `World::new` by update ticks. -/
inductive Reachable : World → Prop
  | base : Reachable World.new
  | step {w : World} (i : Input) : Reachable w → Reachable (w.update i)

/-- The condition under which the current tick's move negates the velocity:
the committed position `circle_y + circle_vy` lands past a boundary. -/
noncomputable def bounceCond (w : World) : Prop :=
  w.circle_y + w.circle_vy < CIRCLE_R ∨ w.circle_y + w.circle_vy > (HEIGHT : ℝ) - CIRCLE_R

/-- Inductive invariant of the occluder substate: the speed is exactly the
initial 1/5, the position overshoots the nominal band by at most one step,
and an out-of-band position always carries an inward velocity. -/
noncomputable def OccInv (w : World) : Prop :=
  (w.circle_vy = 1 / 5 ∨ w.circle_vy = -(1 / 5)) ∧
  CIRCLE_R - 1 / 5 ≤ w.circle_y ∧
  w.circle_y ≤ (HEIGHT : ℝ) - CIRCLE_R + 1 / 5 ∧
  (w.circle_y < CIRCLE_R → w.circle_vy = 1 / 5) ∧
  ((HEIGHT : ℝ) - CIRCLE_R < w.circle_y → w.circle_vy = -(1 / 5))

/-- An `f32` value abstracted as either a finite real or a non-finite value
(NaN or an infinity); the non-finite element absorbs arithmetic and makes
every comparison false, as NaN does in IEEE 754. -/
inductive FVal where
  | fin : ℝ → FVal
  | undef : FVal

/-- Addition on `FVal`. -/
noncomputable def FVal.add : FVal → FVal → FVal
  | FVal.fin a, FVal.fin b => FVal.fin (a + b)
  | _, _ => FVal.undef

/-- Subtraction on `FVal`. -/
noncomputable def FVal.sub : FVal → FVal → FVal
  | FVal.fin a, FVal.fin b => FVal.fin (a - b)
  | _, _ => FVal.undef

/-- Multiplication on `FVal`. -/
noncomputable def FVal.mul : FVal → FVal → FVal
  | FVal.fin a, FVal.fin b => FVal.fin (a * b)
  | _, _ => FVal.undef

/-- Negation on `FVal`. -/
noncomputable def FVal.neg : FVal → FVal
  | FVal.fin a => FVal.fin (-a)
  | FVal.undef => FVal.undef

open Classical in
/-- Division on `FVal`: dividing by zero produces the non-finite value, as an
`f32` division by `0.0` produces an infinity or NaN. -/
noncomputable def FVal.div : FVal → FVal → FVal
  | FVal.fin a, FVal.fin b => if b = 0 then FVal.undef else FVal.fin (a / b)
  | _, _ => FVal.undef

open Classical in
/-- Square root on `FVal`: negative arguments give NaN. -/
noncomputable def FVal.sqrt : FVal → FVal
  | FVal.fin a => if a < 0 then FVal.undef else FVal.fin (Real.sqrt a)
  | FVal.undef => FVal.undef

/-- Strict order on `FVal`: any comparison against a non-finite value is
false, as an `f32` comparison against NaN is. -/
def FVal.lt : FVal → FVal → Prop
  | FVal.fin a, FVal.fin b => a < b
  | _, _ => False

/-- Non-strict order on `FVal`, false on non-finite values like NaN. -/
def FVal.le : FVal → FVal → Prop
  | FVal.fin a, FVal.fin b => a ≤ b
  | _, _ => False

open Classical in
/-- `is_shadowed` transcribed over `FVal`, operation by operation, to expose
the unguarded division when the quadratic coefficient `a` is zero. -/
noncomputable def is_shadowedF (lx ly px py cx cy r : FVal) : Prop :=
  let dx := px.sub lx
  let dy := py.sub ly
  let fx := lx.sub cx
  let fy := ly.sub cy
  let a := (dx.mul dx).add (dy.mul dy)
  let b := (FVal.fin 2).mul ((fx.mul dx).add (fy.mul dy))
  let c := ((fx.mul fx).add (fy.mul fy)).sub (r.mul r)
  let disc := (b.mul b).sub (((FVal.fin 4).mul a).mul c)
  if disc.lt (FVal.fin 0) then False
  else
    let ds := disc.sqrt
    let t1 := ((b.neg).sub ds).div ((FVal.fin 2).mul a)
    let t2 := ((b.neg).add ds).div ((FVal.fin 2).mul a)
    ((FVal.fin 0).le t1 ∧ t1.le (FVal.fin 1)) ∨ ((FVal.fin 0).le t2 ∧ t2.le (FVal.fin 1))

/-! Helper lemmas: what each update block leaves untouched. -/

lemma pressStep_circle (w : World) (i : Input) :
    (w.pressStep i).circle_y = w.circle_y ∧ (w.pressStep i).circle_vy = w.circle_vy := by
  rcases i with ⟨p, h, rl, c⟩
  cases p <;> rcases c with _ | ⟨mx, my⟩ <;>
    simp only [World.pressStep, Bool.false_eq_true, if_false, if_true] <;>
    try split_ifs
  all_goals constructor <;> trivial

lemma pressStep_light (w : World) (i : Input) :
    (w.pressStep i).light_x = w.light_x ∧ (w.pressStep i).light_y = w.light_y := by
  rcases i with ⟨p, h, rl, c⟩
  cases p <;> rcases c with _ | ⟨mx, my⟩ <;>
    simp only [World.pressStep, Bool.false_eq_true, if_false, if_true] <;>
    try split_ifs
  all_goals constructor <;> trivial

lemma dragStep_circle (w : World) (i : Input) :
    (w.dragStep i).circle_y = w.circle_y ∧ (w.dragStep i).circle_vy = w.circle_vy := by
  unfold World.dragStep
  split_ifs <;> rcases hc : i.cursor with _ | ⟨mx, my⟩ <;> exact ⟨rfl, rfl⟩

lemma dragStep_dragging (w : World) (i : Input) :
    (w.dragStep i).dragging = w.dragging := by
  unfold World.dragStep
  split_ifs <;> rcases hc : i.cursor with _ | ⟨mx, my⟩ <;> rfl

lemma releaseStep_circle (w : World) (i : Input) :
    (w.releaseStep i).circle_y = w.circle_y ∧ (w.releaseStep i).circle_vy = w.circle_vy := by
  unfold World.releaseStep
  split_ifs <;> exact ⟨rfl, rfl⟩

lemma releaseStep_light (w : World) (i : Input) :
    (w.releaseStep i).light_x = w.light_x ∧ (w.releaseStep i).light_y = w.light_y := by
  unfold World.releaseStep
  split_ifs <;> exact ⟨rfl, rfl⟩

lemma moveStep_light_drag (w : World) :
    w.moveStep.light_x = w.light_x ∧ w.moveStep.light_y = w.light_y ∧
      w.moveStep.dragging = w.dragging := by
  simp only [World.moveStep]
  split_ifs <;> exact ⟨rfl, rfl, rfl⟩

lemma moveStep_circle (w : World) :
    w.moveStep.circle_y = w.circle_y + w.circle_vy ∧
      w.moveStep.circle_vy =
        if w.circle_y + w.circle_vy < CIRCLE_R ∨
            w.circle_y + w.circle_vy > (HEIGHT : ℝ) - CIRCLE_R then
          -w.circle_vy
        else w.circle_vy := by
  simp only [World.moveStep]
  split_ifs <;> exact ⟨rfl, rfl⟩

/-- The occluder substate after one tick, as a function of the pre-state
only: the first three update blocks never touch the circle fields. -/
lemma update_circle (w : World) (i : Input) :
    (w.update i).circle_y = w.circle_y + w.circle_vy ∧
      (w.update i).circle_vy =
        if w.circle_y + w.circle_vy < CIRCLE_R ∨
            w.circle_y + w.circle_vy > (HEIGHT : ℝ) - CIRCLE_R then
          -w.circle_vy
        else w.circle_vy := by
  have h1 := pressStep_circle w i
  have h2 := dragStep_circle (w.pressStep i) i
  have h3 := releaseStep_circle ((w.pressStep i).dragStep i) i
  have h4 := moveStep_circle (((w.pressStep i).dragStep i).releaseStep i)
  unfold World.update
  rw [h4.1, h4.2, h3.1, h3.2, h2.1, h2.2, h1.1, h1.2]
  exact ⟨rfl, rfl⟩

lemma occInv_new : OccInv World.new := by
  unfold OccInv World.new CIRCLE_Y CIRCLE_R HEIGHT
  norm_num

lemma occInv_step (w : World) (hw : OccInv w) (i : Input) : OccInv (w.update i) := by
  obtain ⟨hv, hlo, hhi, hdlo, hdhi⟩ := hw
  obtain ⟨hy, hvy⟩ := update_circle w i
  unfold OccInv
  rw [hy, hvy]
  unfold CIRCLE_R HEIGHT at *
  push_cast at *
  rcases hv with hv | hv
  · have hy570 : w.circle_y ≤ 570 := by
      by_contra hgt
      push_neg at hgt
      have h2 := hdhi (by linarith)
      rw [hv] at h2
      norm_num at h2
    rw [hv]
    split_ifs with hb
    · have hb2 : w.circle_y + 1 / 5 > 570 := by
        rcases hb with hb | hb
        · linarith
        · linarith
      refine ⟨Or.inr (by norm_num), by linarith, by linarith, ?_, fun _ => by norm_num⟩
      intro hlt
      linarith
    · push_neg at hb
      refine ⟨Or.inl rfl, by linarith, by linarith, ?_, ?_⟩
      · intro hlt
        linarith [hb.1]
      · intro hgt
        linarith [hb.2]
  · have hy150 : 150 ≤ w.circle_y := by
      by_contra hlt
      push_neg at hlt
      have h2 := hdlo (by linarith)
      rw [hv] at h2
      norm_num at h2
    rw [hv]
    split_ifs with hb
    · have hb2 : w.circle_y + -(1 / 5) < 150 := by
        rcases hb with hb | hb
        · linarith
        · linarith
      refine ⟨Or.inl (by norm_num), by linarith, by linarith, fun _ => by norm_num, ?_⟩
      intro hgt
      linarith
    · push_neg at hb
      refine ⟨Or.inr rfl, by linarith, by linarith, ?_, ?_⟩
      · intro hlt
        linarith [hb.1]
      · intro hgt
        linarith [hb.2]

lemma reachable_occInv (w : World) (hw : Reachable w) : OccInv w := by
  induction hw with
  | base => exact occInv_new
  | step i hr ih => exact occInv_step _ ih i

lemma reachable_iter (k : Nat) :
    Reachable ((fun w => w.update noInput)^[k] World.new) := by
  induction k with
  | zero => exact Reachable.base
  | succ k ih =>
    rw [Function.iterate_succ_apply']
    exact Reachable.step noInput ih

/-- Closed form of the occluder while it is still climbing from the start
position: for the first 1050 no-input ticks the position is `360 + k/5` and
the velocity is still `1/5`. -/
lemma iter_noInput_closed (k : Nat) (hk : k ≤ 1050) :
    ((fun w => w.update noInput)^[k] World.new).circle_y = 360 + (k : ℝ) / 5 ∧
      ((fun w => w.update noInput)^[k] World.new).circle_vy = 1 / 5 := by
  induction k with
  | zero =>
    unfold World.new CIRCLE_Y
    norm_num
  | succ k ih =>
    obtain ⟨hy, hv⟩ := ih (Nat.le_of_succ_le hk)
    rw [Function.iterate_succ_apply']
    obtain ⟨hy2, hv2⟩ := update_circle ((fun w => w.update noInput)^[k] World.new) noInput
    have hkr : (k : ℝ) + 1 ≤ 1050 := by
      exact_mod_cast Nat.cast_le.mpr hk
    constructor
    · rw [hy2, hy, hv]
      push_cast
      ring
    · rw [hv2, hy, hv, if_neg]
      unfold CIRCLE_R HEIGHT
      push_cast
      intro hcon
      rcases hcon with hcon | hcon <;> linarith

/-- C3 (counterexample): after 1051 no-input ticks from `World::new` the
occluder centre sits at `570.2`, strictly above `HEIGHT - CIRCLE_R = 570`,
so a reachable state violates the claimed band `[150, 570]`. -/
theorem circle_y_leaves_band :
    Reachable ((fun w => w.update noInput)^[1051] World.new) ∧
      ¬ ((fun w => w.update noInput)^[1051] World.new).circle_y ≤ (HEIGHT : ℝ) - CIRCLE_R := by
  refine ⟨reachable_iter 1051, ?_⟩
  obtain ⟨hy, hv⟩ := iter_noInput_closed 1050 (by norm_num)
  have h51 : (1051 : Nat) = 1050 + 1 := by norm_num
  rw [h51, Function.iterate_succ_apply']
  obtain ⟨hy2, -⟩ := update_circle ((fun w => w.update noInput)^[1050] World.new) noInput
  rw [hy2, hy, hv]
  unfold CIRCLE_R HEIGHT
  push_cast
  norm_num

/-- C3 (amended): every reachable state keeps the occluder centre within the
widened band `[CIRCLE_R - 1/5, HEIGHT - CIRCLE_R + 1/5]` (one velocity step of
overshoot past the nominal band), and the new position is always committed
un-clamped as `circle_y + circle_vy`; the velocity sign is flipped after the
commit when that position lands past a boundary. -/
theorem occluder_band_overshoot (w : World) (hw : Reachable w) :
    CIRCLE_R - 1 / 5 ≤ w.circle_y ∧ w.circle_y ≤ (HEIGHT : ℝ) - CIRCLE_R + 1 / 5 ∧
      ∀ i : Input, (w.update i).circle_y = w.circle_y + w.circle_vy ∧
        (bounceCond w → (w.update i).circle_vy = -w.circle_vy) ∧
        (¬ bounceCond w → (w.update i).circle_vy = w.circle_vy) := by
  have h := reachable_occInv w hw
  refine ⟨h.2.1, h.2.2.1, fun i => ⟨(update_circle w i).1, ?_, ?_⟩⟩
  · intro hb
    unfold bounceCond at hb
    rw [(update_circle w i).2, if_pos hb]
  · intro hb
    unfold bounceCond at hb
    rw [(update_circle w i).2, if_neg hb]

/-- C3 (amended, witness): instantiated at the initial state. -/
theorem occluder_band_overshoot_witness :
    Reachable World.new ∧
      (CIRCLE_R - 1 / 5 ≤ World.new.circle_y ∧
        World.new.circle_y ≤ (HEIGHT : ℝ) - CIRCLE_R + 1 / 5 ∧
        ∀ i : Input, (World.new.update i).circle_y = World.new.circle_y + World.new.circle_vy ∧
          (bounceCond World.new → (World.new.update i).circle_vy = -World.new.circle_vy) ∧
          (¬ bounceCond World.new → (World.new.update i).circle_vy = World.new.circle_vy)) :=
  ⟨Reachable.base, occluder_band_overshoot World.new Reachable.base⟩

/-- C6: for every world (any initial vertical velocity and position) and
every input tick, the tick performs at most one negation of the velocity:
it negates the sign exactly when the committed position
`circle_y + circle_vy` crosses a boundary of the band this tick, and leaves
the velocity unchanged on every other tick; under a nonzero velocity the
negation happens if and only if the boundary is crossed, so the sign flips
exactly once per crossing and never twice within the same tick. -/
theorem bounce_flip_once (w : World) (i : Input) :
    (bounceCond w → (w.update i).circle_vy = -w.circle_vy) ∧
      (¬ bounceCond w → (w.update i).circle_vy = w.circle_vy) ∧
      (w.circle_vy ≠ 0 → ((w.update i).circle_vy = -w.circle_vy ↔ bounceCond w)) := by
  obtain ⟨-, hvy⟩ := update_circle w i
  refine ⟨?_, ?_, ?_⟩
  · intro hb
    unfold bounceCond at hb
    rw [hvy, if_pos hb]
  · intro hb
    unfold bounceCond at hb
    rw [hvy, if_neg hb]
  · intro hvne
    constructor
    · intro hflip
      by_contra hb
      unfold bounceCond at hb
      rw [hvy, if_neg hb] at hflip
      exact absurd (by linarith [hflip] : w.circle_vy = 0) hvne
    · intro hb
      unfold bounceCond at hb
      rw [hvy, if_pos hb]

/-- C6 (witness): a state with velocity `10` whose committed position
`565 + 10 = 575` crosses the upper edge `570` of the band has its velocity
negated by the tick, and the negation is equivalent to the crossing. -/
theorem bounce_flip_once_witness :
    bounceCond ⟨false, 0, 0, 565, 10⟩ ∧
      (((⟨false, 0, 0, 565, 10⟩ : World).update noInput).circle_vy = -(10 : ℝ)) ∧
      ((10 : ℝ) ≠ 0 ∧
        (((⟨false, 0, 0, 565, 10⟩ : World).update noInput).circle_vy = -(10 : ℝ) ↔
          bounceCond ⟨false, 0, 0, 565, 10⟩)) := by
  have hb : bounceCond ⟨false, 0, 0, 565, 10⟩ := by
    unfold bounceCond CIRCLE_R HEIGHT
    right
    norm_num
  exact ⟨hb, (bounce_flip_once ⟨false, 0, 0, 565, 10⟩ noInput).1 hb,
    by norm_num, (bounce_flip_once ⟨false, 0, 0, 565, 10⟩ noInput).2.2 (by norm_num)⟩

/-- C9: every tick either keeps or negates the vertical velocity, so its
absolute value is invariant; on reachable states it is the initial `0.2`, in
particular never zero, so the occluder never permanently stops. -/
theorem velocity_magnitude_invariant (w : World) :
    (∀ i : Input, |(w.update i).circle_vy| = |w.circle_vy|) ∧
      (Reachable w → |w.circle_vy| = 0.2 ∧ w.circle_vy ≠ 0) := by
  constructor
  · intro i
    rw [(update_circle w i).2]
    split_ifs
    · exact abs_neg _
    · rfl
  · intro hw
    obtain ⟨hv, -⟩ := reachable_occInv w hw
    rcases hv with hv | hv <;> rw [hv] <;> constructor <;> norm_num [abs_of_pos, abs_of_neg]

/-- C9 (witness): instantiated at the initial state. -/
theorem velocity_magnitude_invariant_witness :
    Reachable World.new ∧ |World.new.circle_vy| = 0.2 ∧ World.new.circle_vy ≠ 0 :=
  ⟨Reachable.base, (velocity_magnitude_invariant World.new).2 Reachable.base⟩

lemma update_no_press (w : World) (i : Input) (hp : i.mouse_pressed = false)
    (hw : w.dragging = false) :
    (w.update i).dragging = false ∧ (w.update i).light_x = w.light_x ∧
      (w.update i).light_y = w.light_y := by
  unfold World.update
  have h1 : w.pressStep i = w := by
    unfold World.pressStep
    rw [hp]
    simp
  rw [h1]
  have h2 : w.dragStep i = w := by
    unfold World.dragStep
    rw [hw]
    simp
  rw [h2]
  obtain ⟨m1, m2, m3⟩ := moveStep_light_drag (w.releaseStep i)
  obtain ⟨r1, r2⟩ := releaseStep_light w i
  refine ⟨?_, by rw [m1, r1], by rw [m2, r2]⟩
  rw [m3]
  unfold World.releaseStep
  split_ifs
  · rfl
  · exact hw

lemma updates_no_press (l : List Input) :
    ∀ w : World, (∀ i ∈ l, i.mouse_pressed = false) → w.dragging = false →
      (updates w l).dragging = false ∧ (updates w l).light_x = w.light_x ∧
        (updates w l).light_y = w.light_y := by
  induction l with
  | nil =>
    intro w hl hw
    exact ⟨hw, rfl, rfl⟩
  | cons a t ih =>
    intro w hl hw
    have ha := hl a (List.mem_cons_self a t)
    obtain ⟨d1, l1, l2⟩ := update_no_press w a ha hw
    obtain ⟨d2, l3, l4⟩ := ih (w.update a) (fun j hj => hl j (List.mem_cons_of_mem a hj)) d1
    have hc : updates w (a :: t) = updates (w.update a) t := rfl
    exact ⟨by rw [hc]; exact d2, by rw [hc, l3, l1], by rw [hc, l4, l2]⟩

lemma update_holdAt (w : World) (p : ℝ × ℝ) (hw : w.dragging = true) :
    (w.update (holdAt p)).light_x = p.1 ∧ (w.update (holdAt p)).light_y = p.2 ∧
      (w.update (holdAt p)).dragging = true := by
  rcases p with ⟨a, b⟩
  unfold World.update
  have h1 : w.pressStep (holdAt (a, b)) = w := by
    unfold World.pressStep holdAt
    simp
  rw [h1]
  have h2 : w.dragStep (holdAt (a, b)) = { w with light_x := a, light_y := b } := by
    unfold World.dragStep holdAt
    rw [hw]
    simp
  rw [h2]
  have h3 : ({ w with light_x := a, light_y := b } : World).releaseStep (holdAt (a, b)) =
      { w with light_x := a, light_y := b } := by
    unfold World.releaseStep holdAt
    simp
  rw [h3]
  obtain ⟨m1, m2, m3⟩ := moveStep_light_drag ({ w with light_x := a, light_y := b } : World)
  exact ⟨by rw [m1], by rw [m2], by rw [m3]; exact hw⟩

lemma update_press_inside (w : World) (mx my : ℝ)
    (hin : Real.sqrt ((mx - w.light_x) * (mx - w.light_x) +
        (my - w.light_y) * (my - w.light_y)) ≤ LIGHT_R) :
    (w.update (pressAt (mx, my))).dragging = true ∧
      (w.update (pressAt (mx, my))).light_x = mx ∧
      (w.update (pressAt (mx, my))).light_y = my := by
  unfold World.update
  have h1 : w.pressStep (pressAt (mx, my)) = { w with dragging := true } := by
    unfold World.pressStep pressAt
    simp [hin]
  rw [h1]
  have h2 : ({ w with dragging := true } : World).dragStep (pressAt (mx, my)) =
      { w with dragging := true, light_x := mx, light_y := my } := by
    unfold World.dragStep pressAt
    simp
  rw [h2]
  have h3 : ({ w with dragging := true, light_x := mx, light_y := my } : World).releaseStep
      (pressAt (mx, my)) = { w with dragging := true, light_x := mx, light_y := my } := by
    unfold World.releaseStep pressAt
    simp
  rw [h3]
  obtain ⟨m1, m2, m3⟩ := moveStep_light_drag
    ({ w with dragging := true, light_x := mx, light_y := my } : World)
  exact ⟨by rw [m3], by rw [m1], by rw [m2]⟩

lemma update_press_outside (w : World) (mx my : ℝ) (hw : w.dragging = false)
    (hout : ¬ Real.sqrt ((mx - w.light_x) * (mx - w.light_x) +
        (my - w.light_y) * (my - w.light_y)) ≤ LIGHT_R) :
    (w.update (pressAt (mx, my))).dragging = false ∧
      (w.update (pressAt (mx, my))).light_x = w.light_x ∧
      (w.update (pressAt (mx, my))).light_y = w.light_y := by
  unfold World.update
  have h1 : w.pressStep (pressAt (mx, my)) = w := by
    unfold World.pressStep pressAt
    simp [hout]
  rw [h1]
  have h2 : w.dragStep (pressAt (mx, my)) = w := by
    unfold World.dragStep
    rw [hw]
    simp
  rw [h2]
  have h3 : w.releaseStep (pressAt (mx, my)) = w := by
    unfold World.releaseStep pressAt
    simp
  rw [h3]
  obtain ⟨m1, m2, m3⟩ := moveStep_light_drag w
  exact ⟨by rw [m3]; exact hw, by rw [m1], by rw [m2]⟩

lemma updates_holds_prefix (hs : List (ℝ × ℝ)) :
    ∀ w : World, w.dragging = true → ∀ k : Nat, ∀ hk : k < hs.length,
      (updates w ((hs.take (k + 1)).map holdAt)).light_x = (hs.get ⟨k, hk⟩).1 ∧
        (updates w ((hs.take (k + 1)).map holdAt)).light_y = (hs.get ⟨k, hk⟩).2 ∧
        (updates w ((hs.take (k + 1)).map holdAt)).dragging = true := by
  induction hs with
  | nil =>
    intro w hw k hk
    simp at hk
  | cons p t ih =>
    intro w hw k hk
    obtain ⟨h1, h2, h3⟩ := update_holdAt w p hw
    cases k with
    | zero => exact ⟨h1, h2, h3⟩
    | succ k =>
      have hk2 : k < t.length := Nat.lt_of_succ_lt_succ hk
      obtain ⟨g1, g2, g3⟩ := ih (w.update (holdAt p)) h3 k hk2
      exact ⟨g1, g2, g3⟩

lemma update_dragging (w : World) (i : Input) :
    (w.update i).dragging =
      if i.mouse_released then false else (w.pressStep i).dragging := by
  unfold World.update
  obtain ⟨-, -, m3⟩ := moveStep_light_drag (((w.pressStep i).dragStep i).releaseStep i)
  rw [m3]
  have hd := dragStep_dragging (w.pressStep i) i
  unfold World.releaseStep
  split_ifs
  · rfl
  · exact hd

lemma pressStep_dragging_true (w : World) (i : Input) (h : (w.pressStep i).dragging = true) :
    w.dragging = true ∨
      (i.mouse_pressed = true ∧ ∃ mx my, i.cursor = some (mx, my) ∧
        Real.sqrt ((mx - w.light_x) * (mx - w.light_x) +
          (my - w.light_y) * (my - w.light_y)) ≤ LIGHT_R) := by
  unfold World.pressStep at h
  by_cases hp : i.mouse_pressed = true
  · rw [if_pos hp] at h
    rcases hc : i.cursor with _ | ⟨mx, my⟩ <;> rw [hc] at h
    · exact Or.inl h
    · dsimp only at h
      split_ifs at h with hin
      · exact Or.inr ⟨hp, mx, my, rfl, hin⟩
      · exact Or.inl h
  · rw [if_neg hp] at h
    exact Or.inl h

lemma pressStep_dragging_of_true (w : World) (i : Input) (h : w.dragging = true) :
    (w.pressStep i).dragging = true := by
  unfold World.pressStep
  by_cases hp : i.mouse_pressed = true
  · rw [if_pos hp]
    rcases hc : i.cursor with _ | ⟨mx, my⟩
    · exact h
    · dsimp only
      split_ifs
      · rfl
      · exact h
  · rw [if_neg hp]
    exact h

/-- C5: from a non-dragging state, a primary press outside the light radius
followed by any sequence of hold ticks never moves the light, while a press
inside the radius (inclusive) makes the light equal the hold's pointer
coordinates on every subsequent hold tick, with no release delivered. -/
theorem drag_press_follow (w : World) (mx my : ℝ) (hs : List (ℝ × ℝ))
    (hdrag : w.dragging = false) :
    (¬ Real.sqrt ((mx - w.light_x) * (mx - w.light_x) +
          (my - w.light_y) * (my - w.light_y)) ≤ LIGHT_R →
        (updates w (pressAt (mx, my) :: hs.map holdAt)).light_x = w.light_x ∧
          (updates w (pressAt (mx, my) :: hs.map holdAt)).light_y = w.light_y) ∧
      (Real.sqrt ((mx - w.light_x) * (mx - w.light_x) +
          (my - w.light_y) * (my - w.light_y)) ≤ LIGHT_R →
        ∀ k : Nat, ∀ hk : k < hs.length,
          (updates w (pressAt (mx, my) :: (hs.take (k + 1)).map holdAt)).light_x =
              (hs.get ⟨k, hk⟩).1 ∧
            (updates w (pressAt (mx, my) :: (hs.take (k + 1)).map holdAt)).light_y =
              (hs.get ⟨k, hk⟩).2) := by
  constructor
  · intro hout
    obtain ⟨d1, l1, l2⟩ := update_press_outside w mx my hdrag hout
    have hall : ∀ i ∈ hs.map holdAt, i.mouse_pressed = false := by
      intro i hi
      obtain ⟨p, -, hp⟩ := List.mem_map.mp hi
      rw [← hp]
      rfl
    obtain ⟨-, f1, f2⟩ := updates_no_press (hs.map holdAt) (w.update (pressAt (mx, my))) hall d1
    have hc : updates w (pressAt (mx, my) :: hs.map holdAt) =
        updates (w.update (pressAt (mx, my))) (hs.map holdAt) := rfl
    exact ⟨by rw [hc, f1, l1], by rw [hc, f2, l2]⟩
  · intro hin k hk
    obtain ⟨d1, -, -⟩ := update_press_inside w mx my hin
    obtain ⟨g1, g2, -⟩ := updates_holds_prefix hs (w.update (pressAt (mx, my))) d1 k hk
    exact ⟨g1, g2⟩

/-- C5 (witness): pressing exactly on the light centre of the initial state
and then holding at `(999, 999)` moves the light to `(999, 999)`. -/
theorem drag_press_follow_witness :
    World.new.dragging = false ∧
      (updates World.new (pressAt (200, 360) :: ([((999 : ℝ), (999 : ℝ))].take 1).map holdAt)).light_x =
          999 ∧
        (updates World.new (pressAt (200, 360) :: ([((999 : ℝ), (999 : ℝ))].take 1).map holdAt)).light_y =
          999 := by
  have hin : Real.sqrt ((200 - World.new.light_x) * (200 - World.new.light_x) +
      (360 - World.new.light_y) * (360 - World.new.light_y)) ≤ LIGHT_R := by
    unfold World.new LIGHT_X LIGHT_Y LIGHT_R
    norm_num
  exact ⟨rfl, (drag_press_follow World.new 200 360 [(999, 999)] rfl).2 hin 0 (by norm_num)⟩

/-- C7: the drag flag can turn on only through an in-radius press with no
release on the same tick, can turn off only on a release, and is kept by any
release-free tick regardless of where the pointer moves. -/
theorem dragging_transitions (w : World) (i : Input) :
    (w.dragging = false → (w.update i).dragging = true →
        i.mouse_pressed = true ∧ i.mouse_released = false ∧
          ∃ mx my, i.cursor = some (mx, my) ∧
            Real.sqrt ((mx - w.light_x) * (mx - w.light_x) +
              (my - w.light_y) * (my - w.light_y)) ≤ LIGHT_R) ∧
      (w.dragging = true → (w.update i).dragging = false → i.mouse_released = true) ∧
      (w.dragging = true → i.mouse_released = false → (w.update i).dragging = true) := by
  have hud := update_dragging w i
  refine ⟨?_, ?_, ?_⟩
  · intro hw hafter
    rw [hud] at hafter
    by_cases hr : i.mouse_released = true
    · rw [if_pos hr] at hafter
      exact absurd hafter (by norm_num)
    · rw [if_neg hr] at hafter
      rcases pressStep_dragging_true w i hafter with hcon | ⟨hp, mx, my, hc, hin⟩
      · rw [hw] at hcon
        exact absurd hcon (by norm_num)
      · exact ⟨hp, Bool.not_eq_true _ ▸ (by simpa using hr), mx, my, hc, hin⟩
  · intro hw hafter
    rw [hud] at hafter
    by_cases hr : i.mouse_released = true
    · exact hr
    · rw [if_neg hr] at hafter
      rw [pressStep_dragging_of_true w i hw] at hafter
      exact absurd hafter (by norm_num)
  · intro hw hr
    rw [hud, if_neg (by rw [hr]; norm_num)]
    exact pressStep_dragging_of_true w i hw

/-- C7 (witness): a release-free idle tick keeps a dragging state dragging. -/
theorem dragging_transitions_witness :
    ((⟨true, 5, 5, 300, 1⟩ : World).update noInput).dragging = true :=
  (dragging_transitions ⟨true, 5, 5, 300, 1⟩ noInput).2.2 rfl rfl

/-- C10: when a press and a release of the primary button arrive in the same
tick, the release block runs after the press block, so the tick ends with
`dragging = false`. -/
theorem press_release_same_tick (w : World) (i : Input)
    (_hp : i.mouse_pressed = true) (hr : i.mouse_released = true) :
    (w.update i).dragging = false := by
  rw [update_dragging w i, if_pos hr]

/-- C10 (witness): a press-and-release tick on the initial state, with the
press landing inside the light, still ends not dragging. -/
theorem press_release_same_tick_witness :
    (World.new.update ⟨true, true, true, some (200, 360)⟩).dragging = false :=
  press_release_same_tick World.new ⟨true, true, true, some (200, 360)⟩ rfl rfl

lemma shadowRoots_iff (a b c : ℝ) :
    shadowRoots a b c ↔
      (0 ≤ b ^ 2 - 4 * a * c ∧
        ((-b - Real.sqrt (b ^ 2 - 4 * a * c)) / (2 * a) ∈ Set.Icc (0 : ℝ) 1 ∨
          (-b + Real.sqrt (b ^ 2 - 4 * a * c)) / (2 * a) ∈ Set.Icc (0 : ℝ) 1)) := by
  unfold shadowRoots
  have e : b * b - 4 * a * c = b ^ 2 - 4 * a * c := by ring
  rw [e]
  by_cases hd : b ^ 2 - 4 * a * c < 0
  · rw [if_pos hd]
    simp only [false_iff, Set.mem_Icc]
    rintro ⟨h0, -⟩
    exact absurd h0 (not_le.mpr hd)
  · rw [if_neg hd]
    push_neg at hd
    simp only [Set.mem_Icc]
    constructor
    · intro h
      exact ⟨hd, h⟩
    · intro h
      exact h.2

/-- C1: for a non-degenerate ray (pixel distinct from light), `is_shadowed`
holds iff the quadratic with `a = |pixel - light|^2`,
`b = 2 ((light - centre) . (pixel - light))`, `c = |light - centre|^2 - r^2`
has a non-negative discriminant and one of its two roots lies in `[0, 1]`. -/
theorem is_shadowed_spec (lx ly px py cx cy r : ℝ) (_h : (px, py) ≠ (lx, ly)) :
    is_shadowed lx ly px py cx cy r ↔
      (0 ≤ (2 * ((lx - cx) * (px - lx) + (ly - cy) * (py - ly))) ^ 2 -
          4 * ((px - lx) ^ 2 + (py - ly) ^ 2) *
            ((lx - cx) ^ 2 + (ly - cy) ^ 2 - r ^ 2) ∧
        ((-(2 * ((lx - cx) * (px - lx) + (ly - cy) * (py - ly))) -
              Real.sqrt ((2 * ((lx - cx) * (px - lx) + (ly - cy) * (py - ly))) ^ 2 -
                4 * ((px - lx) ^ 2 + (py - ly) ^ 2) *
                  ((lx - cx) ^ 2 + (ly - cy) ^ 2 - r ^ 2))) /
            (2 * ((px - lx) ^ 2 + (py - ly) ^ 2)) ∈ Set.Icc (0 : ℝ) 1 ∨
          (-(2 * ((lx - cx) * (px - lx) + (ly - cy) * (py - ly))) +
              Real.sqrt ((2 * ((lx - cx) * (px - lx) + (ly - cy) * (py - ly))) ^ 2 -
                4 * ((px - lx) ^ 2 + (py - ly) ^ 2) *
                  ((lx - cx) ^ 2 + (ly - cy) ^ 2 - r ^ 2))) /
            (2 * ((px - lx) ^ 2 + (py - ly) ^ 2)) ∈ Set.Icc (0 : ℝ) 1)) := by
  unfold is_shadowed
  rw [shadowRoots_iff]
  have ea : (px - lx) * (px - lx) + (py - ly) * (py - ly) =
      (px - lx) ^ 2 + (py - ly) ^ 2 := by ring
  have ec : (lx - cx) * (lx - cx) + (ly - cy) * (ly - cy) - r * r =
      (lx - cx) ^ 2 + (ly - cy) ^ 2 - r ^ 2 := by ring
  rw [ea, ec]

/-- C1 (witness): light `(0,0)`, pixel `(2,0)`, occluder centre `(1,0)` of
radius `1`; the first root is `0` and the segment is occluded. -/
theorem is_shadowed_spec_witness :
    (((2 : ℝ), (0 : ℝ)) ≠ ((0 : ℝ), (0 : ℝ))) ∧ is_shadowed 0 0 2 0 1 0 1 := by
  have h : (((2 : ℝ), (0 : ℝ)) ≠ ((0 : ℝ), (0 : ℝ))) := by
    simp [Prod.ext_iff]
  have h16 : Real.sqrt 16 = 4 := by
    rw [show (16 : ℝ) = 4 ^ 2 by norm_num]
    exact Real.sqrt_sq (by norm_num)
  refine ⟨h, (is_shadowed_spec 0 0 2 0 1 0 1 h).mpr ?_⟩
  norm_num [Set.mem_Icc, h16]

/-- C8: `is_shadowed` is invariant under applying one common rigid transform
(rotation by an angle with cosine `co` and sine `si`, then translation by
`(tx, ty)`) to the light, the pixel and the occluder centre at once. -/
theorem is_shadowed_rigid_invariant (lx ly px py cx cy r tx ty co si : ℝ)
    (h : co ^ 2 + si ^ 2 = 1) :
    (is_shadowed (co * lx - si * ly + tx) (si * lx + co * ly + ty)
        (co * px - si * py + tx) (si * px + co * py + ty)
        (co * cx - si * cy + tx) (si * cx + co * cy + ty) r ↔
      is_shadowed lx ly px py cx cy r) := by
  unfold is_shadowed
  have ha : ((co * px - si * py + tx) - (co * lx - si * ly + tx)) *
        ((co * px - si * py + tx) - (co * lx - si * ly + tx)) +
        ((si * px + co * py + ty) - (si * lx + co * ly + ty)) *
        ((si * px + co * py + ty) - (si * lx + co * ly + ty)) =
      (px - lx) * (px - lx) + (py - ly) * (py - ly) := by
    linear_combination ((px - lx) * (px - lx) + (py - ly) * (py - ly)) * h
  have hb : 2 * (((co * lx - si * ly + tx) - (co * cx - si * cy + tx)) *
        ((co * px - si * py + tx) - (co * lx - si * ly + tx)) +
        ((si * lx + co * ly + ty) - (si * cx + co * cy + ty)) *
        ((si * px + co * py + ty) - (si * lx + co * ly + ty))) =
      2 * ((lx - cx) * (px - lx) + (ly - cy) * (py - ly)) := by
    linear_combination (2 * ((lx - cx) * (px - lx) + (ly - cy) * (py - ly))) * h
  have hc2 : ((co * lx - si * ly + tx) - (co * cx - si * cy + tx)) *
        ((co * lx - si * ly + tx) - (co * cx - si * cy + tx)) +
        ((si * lx + co * ly + ty) - (si * cx + co * cy + ty)) *
        ((si * lx + co * ly + ty) - (si * cx + co * cy + ty)) - r * r =
      (lx - cx) * (lx - cx) + (ly - cy) * (ly - cy) - r * r := by
    linear_combination ((lx - cx) * (lx - cx) + (ly - cy) * (ly - cy)) * h
  rw [ha, hb, hc2]

/-- C8 (witness): a quarter-turn rotation plus translation by `(7, -3)`
applied to the concrete scene of the C1 witness. -/
theorem is_shadowed_rigid_invariant_witness :
    ((0 : ℝ) ^ 2 + (1 : ℝ) ^ 2 = 1) ∧
      (is_shadowed (0 * 0 - 1 * 0 + 7) (1 * 0 + 0 * 0 + -3) (0 * 2 - 1 * 0 + 7)
          (1 * 2 + 0 * 0 + -3) (0 * 1 - 1 * 0 + 7) (1 * 1 + 0 * 0 + -3) 1 ↔
        is_shadowed 0 0 2 0 1 0 1) :=
  ⟨by norm_num, is_shadowed_rigid_invariant 0 0 2 0 1 0 1 7 (-3) 0 1 (by norm_num)⟩

/-- C2: each pixel is classified by the first matching rule, in priority
order: within the light radius (inclusive) white, else within the occluder
radius (inclusive) white, else shadowed black, else the yellow background;
the alpha byte is `0xff` in every branch. -/
theorem draw_pixel_classification (w : World) (i : Nat) :
    (Real.sqrt ((((i % WIDTH : Nat) : ℝ) - w.light_x) ^ 2 +
          (((i / WIDTH : Nat) : ℝ) - w.light_y) ^ 2) ≤ LIGHT_R →
        w.drawPixel i = [0xff, 0xff, 0xff, 0xff]) ∧
      (¬ Real.sqrt ((((i % WIDTH : Nat) : ℝ) - w.light_x) ^ 2 +
            (((i / WIDTH : Nat) : ℝ) - w.light_y) ^ 2) ≤ LIGHT_R →
        Real.sqrt ((((i % WIDTH : Nat) : ℝ) - CIRCLE_X) ^ 2 +
            (((i / WIDTH : Nat) : ℝ) - w.circle_y) ^ 2) ≤ CIRCLE_R →
        w.drawPixel i = [0xff, 0xff, 0xff, 0xff]) ∧
      (¬ Real.sqrt ((((i % WIDTH : Nat) : ℝ) - w.light_x) ^ 2 +
            (((i / WIDTH : Nat) : ℝ) - w.light_y) ^ 2) ≤ LIGHT_R →
        ¬ Real.sqrt ((((i % WIDTH : Nat) : ℝ) - CIRCLE_X) ^ 2 +
            (((i / WIDTH : Nat) : ℝ) - w.circle_y) ^ 2) ≤ CIRCLE_R →
        is_shadowed w.light_x w.light_y ((i % WIDTH : Nat) : ℝ) ((i / WIDTH : Nat) : ℝ)
          CIRCLE_X w.circle_y CIRCLE_R →
        w.drawPixel i = [0x00, 0x00, 0x00, 0xff]) ∧
      (¬ Real.sqrt ((((i % WIDTH : Nat) : ℝ) - w.light_x) ^ 2 +
            (((i / WIDTH : Nat) : ℝ) - w.light_y) ^ 2) ≤ LIGHT_R →
        ¬ Real.sqrt ((((i % WIDTH : Nat) : ℝ) - CIRCLE_X) ^ 2 +
            (((i / WIDTH : Nat) : ℝ) - w.circle_y) ^ 2) ≤ CIRCLE_R →
        ¬ is_shadowed w.light_x w.light_y ((i % WIDTH : Nat) : ℝ) ((i / WIDTH : Nat) : ℝ)
          CIRCLE_X w.circle_y CIRCLE_R →
        w.drawPixel i = [0xff, 0xff, 0x00, 0xff]) ∧
      (∃ cr cg cb : Nat, w.drawPixel i = [cr, cg, cb, 0xff]) := by
  unfold World.drawPixel
  dsimp only
  split_ifs with h1 h2 h3 <;>
    refine ⟨fun ha => ?_, fun ha hb => ?_, fun ha hb hcc => ?_, fun ha hb hcc => ?_, ?_⟩
  all_goals
    first
      | rfl
      | exact absurd h1 ha
      | exact absurd ha h1
      | exact absurd h2 hb
      | exact absurd hb h2
      | exact absurd h3 hcc
      | exact absurd hcc h3
      | exact ⟨0xff, 0xff, 0xff, rfl⟩
      | exact ⟨0x00, 0x00, 0x00, rfl⟩
      | exact ⟨0xff, 0xff, 0x00, rfl⟩

/-- C2 (witness): the classification applied to pixel 0 of the initial
state; in particular its alpha byte is `0xff`. -/
theorem draw_pixel_classification_witness :
    ∃ cr cg cb : Nat, World.new.drawPixel 0 = [cr, cg, cb, 0xff] :=
  (draw_pixel_classification World.new 0).2.2.2.2

/-- C4: with the pixel at the light position the coefficient `a` is zero, so
division by `2 a = 0` is performed unguarded and yields a non-finite value
(first conjunct), the interval test on a non-finite value is false in both
directions (second conjunct), and `is_shadowed` on the degenerate ray
returns false for every occluder (third conjunct). -/
theorem degenerate_ray_not_shadowed (lx ly cx cy r : ℝ) :
    (∀ x : FVal, x.div (FVal.fin 0) = FVal.undef) ∧
      (¬ (FVal.fin 0).le FVal.undef ∧ ¬ FVal.undef.le (FVal.fin 1)) ∧
      ¬ is_shadowedF (FVal.fin lx) (FVal.fin ly) (FVal.fin lx) (FVal.fin ly)
          (FVal.fin cx) (FVal.fin cy) (FVal.fin r) := by
  refine ⟨?_, ⟨?_, ?_⟩, ?_⟩
  · intro x
    cases x <;> simp [FVal.div]
  · simp [FVal.le]
  · simp [FVal.le]
  · unfold is_shadowedF
    simp [FVal.sub, FVal.mul, FVal.add, FVal.neg, FVal.div, FVal.sqrt, FVal.lt, FVal.le,
      sub_self, mul_zero, zero_mul, add_zero, zero_add, sub_zero, neg_zero, Real.sqrt_zero]

/-- C4 (witness): the degenerate ray at the light position `(3, 4)` with the
occluder at `(1, 0)` of radius `5` is reported unoccluded. -/
theorem degenerate_ray_not_shadowed_witness :
    ¬ is_shadowedF (FVal.fin 3) (FVal.fin 4) (FVal.fin 3) (FVal.fin 4)
        (FVal.fin 1) (FVal.fin 0) (FVal.fin 5) :=
  (degenerate_ray_not_shadowed 3 4 1 0 5).2.2
